import Mathlib

/-!
Shallow embedding of the SpiderFoot module `sfp_searchtld`
(`src/modules/sfp_searchtld.py`).

The module enumerates candidate domains `keyword.tld` (and, when
`checkcommon` is set, `keyword.subtld.tld`) over a fetched TLD list,
dispatches accumulated candidates in batches to a threaded resolver
(`tryTldWrapper` / `tryTld`), and reports resolving candidates through
`sendEvent`, which appends to `self.results` and notifies listeners
(optionally gated by an HTTP content probe when `activeonly` is set).

External capabilities (DNS resolution, HTTP fetch, wildcard detection,
the cooperative cancellation check, and the nondeterministic order in
which the spawned resolver threads write into `self.tldResults`) are
parameters of the embedding.  Machine state that the Python module
mutates (`self.results`, emitted events, the local `targetList`, the
dispatched batches and the early-return flag) is threaded explicitly
through a `RunSt` record; `batches` is a ghost field recording each list
passed to `tryTldWrapper`.
-/

set_option autoImplicit false

namespace SearchTld

/-- Run configuration: mirrors the module option dictionary `self.opts`
(the fields relevant to the enumeration logic). -/
structure Config where
  activeonly : Bool
  checkcommon : Bool
  commontlds : List String
  skipwildcards : Bool
  maxthreads : Nat
deriving DecidableEq

/-- External capabilities consumed by the module.
`resolve` models `socket.gethostbyname_ex` (`Except.ok` is a successful
lookup returning addresses, `Except.error` is any raised exception);
`fetch` models the `content` field of `sf.fetchUrl` (`none` is Python
`None`); `wild` models `sf.checkDnsWildcard`; `stop` models
`self.checkForStop`, consulted at the n-th cancellation check of the
run; `sched` gives, for each dispatched batch, the order in which the
spawned threads perform their writes into `self.tldResults` (thread
scheduling is nondeterministic, so the write order is a parameter; a
faithful schedule is a permutation of the batch). -/
structure Caps where
  resolve : String → Except String (List String)
  fetch : String → Option String
  wild : String → Bool
  stop : Nat → Bool
  sched : List String → List String

/-- Observable run state: `results` is `self.results`, `events` the
values of the `SIMILARDOMAIN` events passed to `notifyListeners`,
`checks` counts calls of `self.checkForStop`, `batches` records every
list handed to `tryTldWrapper`, `tl` is the local `targetList` of
`start`, and `halted` records that `start` has hit `return None` at a
cancellation check. -/
structure RunSt where
  results : List String
  events : List String
  checks : Nat
  batches : List (List String)
  tl : List String
  halted : Bool
deriving DecidableEq

/-- The state at the top of `start`. -/
def initSt : RunSt := ⟨[], [], 0, [], [], false⟩

/-- Python `tld.startswith("#")` for the one-character pattern `#`: the
first character of the line is `#` (false on the empty line). -/
def startsWithHash (tld : String) : Bool :=
  match tld.data with
  | [] => false
  | c :: _ => c == '#'

/-- Python dict `self.tldResults` as an insertion-ordered association
list: writing an existing key updates it in place, a new key is
appended at the end. -/
def dictInsert : List (String × Bool) → String → Bool → List (String × Bool)
  | [], k, v => [(k, v)]
  | p :: rest, k, v => if p.1 = k then (k, v) :: rest else p :: dictInsert rest k v

/-- Python dict lookup `d[k]` (as an `Option`). -/
def dictGet : List (String × Bool) → String → Option Bool
  | [], _ => none
  | p :: rest, k => if p.1 = k then some p.2 else dictGet rest k

/-- The keys of the dict, in insertion order. -/
def dkeys (d : List (String × Bool)) : List String := d.map Prod.fst

/-- Whether a `socket.gethostbyname_ex` call returned without raising. -/
def isOkB (r : Except String (List String)) : Bool :=
  match r with
  | .ok _ => true
  | .error _ => false

/-- `tryTld`: one worker thread body.  `try: socket.gethostbyname_ex(target);
self.tldResults[target] = True` and `except BaseException: ... = False`:
the outcome written is exactly whether the lookup succeeded, and any
exception is absorbed. -/
def tryTld (resolve : String → Except String (List String))
    (d : List (String × Bool)) (target : String) : List (String × Bool) :=
  dictInsert d target (isOkB (resolve target))

/-- The contents of `self.tldResults` after all threads of one wrapper
call have finished, given the order `order` in which the threads
performed their writes.  The dict is reset to empty at the top of each
`tryTldWrapper` call. -/
def runThreads (resolve : String → Except String (List String))
    (order : List String) : List (String × Bool) :=
  order.foldl (tryTld resolve) []

/-- `sendEvent`: drop the candidate if it equals the target domain,
otherwise append it to `self.results`; then notify listeners, except
that with `activeonly` the notification is skipped when `checkForStop`
fires or when the fetched content of `http://<result>` is `None`. -/
def sendEvent (cfg : Config) (caps : Caps) (base : String)
    (s : RunSt) (result : String) : RunSt :=
  if result = base then s
  else
    let s1 : RunSt := { s with results := s.results ++ [result] }
    if cfg.activeonly then
      if caps.stop s1.checks then { s1 with checks := s1.checks + 1 }
      else
        let s2 : RunSt := { s1 with checks := s1.checks + 1 }
        match caps.fetch ("http://" ++ result) with
        | some _ => { s2 with events := s2.events ++ [result] }
        | none => s2
    else { s1 with events := s1.events ++ [result] }

/-- One entry of the reporting loop at the end of `tryTldWrapper`:
`if self.tldResults[res]: self.sendEvent(None, res)`. -/
def emitStep (cfg : Config) (caps : Caps) (base : String)
    (s : RunSt) (p : String × Bool) : RunSt :=
  if p.2 then sendEvent cfg caps base s p.1 else s

/-- The reporting loop at the end of `tryTldWrapper`:
`for res in self.tldResults.keys(): if self.tldResults[res]: self.sendEvent(None, res)`. -/
def emitLoop (cfg : Config) (caps : Caps) (base : String)
    (s : RunSt) (d : List (String × Bool)) : RunSt :=
  d.foldl (emitStep cfg caps base) s

/-- `tryTldWrapper`: reset `self.tldResults`, spawn one thread per
candidate, join, then report every resolving key.  The batch handed in
is recorded in the ghost `batches` field. -/
def tryTldWrapper (cfg : Config) (caps : Caps) (base : String)
    (s : RunSt) (tldList : List String) : RunSt :=
  emitLoop cfg caps base { s with batches := s.batches ++ [tldList] }
    (runThreads caps.resolve (caps.sched tldList))

/-- One iteration of the inner `for subtld in self.opts['commontlds']`
loop of `start`: build `keyword.subtld.tld`, check cancellation, skip
wildcard sub-zones, and either append to `targetList` (when
`len(targetList) <= maxthreads`) or flush the batch — in which case the
current `subDomain` is appended nowhere. -/
def stepSub (cfg : Config) (caps : Caps) (keyword base tld : String)
    (s : RunSt) (subtld : String) : RunSt :=
  if s.halted then s
  else
    let subDomain := keyword ++ "." ++ subtld ++ "." ++ tld
    if caps.stop s.checks then { s with checks := s.checks + 1, halted := true }
    else
      let s1 : RunSt := { s with checks := s.checks + 1 }
      if cfg.skipwildcards && caps.wild (subtld ++ "." ++ tld) then s1
      else if s1.tl.length ≤ cfg.maxthreads then { s1 with tl := s1.tl ++ [subDomain] }
      else
        let s2 := tryTldWrapper cfg caps base s1 s1.tl
        { s2 with tl := [] }

/-- One iteration of the outer `for tld in ...splitlines()` loop of
`start`: skip comment lines, skip (with `continue`, i.e. including all
sub-TLD combinations) wildcard TLDs, check cancellation, append
`keyword.tld` to `targetList` or flush the batch (dropping the current
`tryDomain`), then run the `commontlds` loop when `checkcommon`. -/
def stepTld (cfg : Config) (caps : Caps) (keyword base : String)
    (s : RunSt) (tld : String) : RunSt :=
  if s.halted then s
  else if startsWithHash tld then s
  else if cfg.skipwildcards && caps.wild tld then s
  else
    let tryDomain := keyword ++ "." ++ tld
    if caps.stop s.checks then { s with checks := s.checks + 1, halted := true }
    else
      let s1 : RunSt := { s with checks := s.checks + 1 }
      let s2 : RunSt :=
        if s1.tl.length ≤ cfg.maxthreads then { s1 with tl := s1.tl ++ [tryDomain] }
        else
          let sw := tryTldWrapper cfg caps base s1 s1.tl
          { sw with tl := [] }
      if cfg.checkcommon then cfg.commontlds.foldl (stepSub cfg caps keyword base tld) s2
      else s2

/-- The final `if len(targetList) > 0: self.tryTldWrapper(targetList)` of
`start`.  It is only reached when the loop ran to completion: an early
`return None` (recorded in `halted`) skips it, discarding the
accumulated partial batch. -/
def finishRun (cfg : Config) (caps : Caps) (base : String) (s : RunSt) : RunSt :=
  if s.halted then s
  else if s.tl.length > 0 then
    let s1 := tryTldWrapper cfg caps base s s.tl
    { s1 with tl := [] }
  else s

/-- The body of `start` from the point where the TLD list has been
fetched and split into lines. -/
def startOn (cfg : Config) (caps : Caps) (keyword base : String)
    (lines : List String) : RunSt :=
  finishRun cfg caps base (lines.foldl (stepTld cfg caps keyword base) initSt)

/-- Python `str.lower` on the fetched body. -/
def lowerStr (s : String) : String := s.map Char.toLower

/-- `start`: fetch the TLD list; on `None` content log an error and do
nothing, otherwise iterate over the lower-cased lines (line splitting
modelled as splitting on newline). -/
def start (cfg : Config) (caps : Caps) (keyword base : String)
    (body : Option String) : RunSt :=
  match body with
  | none => initSt
  | some content => startOn cfg caps keyword base ((lowerStr content).splitOn "\n")

/-! Concrete configurations and capability bundles used to evaluate the
embedding on specific inputs. -/

/-- Options with every feature off: `activeonly=false`, `checkcommon=false`,
`skipwildcards=false`, `maxthreads=100` (the default). -/
def cfgPlain : Config := ⟨false, false, [], false, 100⟩

/-- Options as `cfgPlain` but with `maxthreads=1`, to exercise the batch
flush with a short TLD list. -/
def cfgFlush : Config := ⟨false, false, [], false, 1⟩

/-- Options with `skipwildcards=true` and `checkcommon=true` over the
single common sub-TLD `com`. -/
def cfgC1 : Config := ⟨false, true, ["com"], true, 100⟩

/-- Options with `activeonly=true` and everything else off. -/
def cfgActive : Config := ⟨true, false, [], false, 100⟩

/-- Capabilities: every lookup succeeds, every fetch has content, no
wildcard zones, no cancellation, threads write in spawn order. -/
def capsFlush : Caps :=
  ⟨fun _ => .ok ["0.0.0.0"], fun _ => some "b", fun _ => false, fun _ => false, fun b => b⟩

/-- Capabilities as `capsFlush` except that zone `x` (and only zone `x`)
is a wildcard zone. -/
def capsC1 : Caps :=
  ⟨fun _ => .ok ["0.0.0.0"], fun _ => some "b", fun z => z == "x", fun _ => false, fun b => b⟩

/-- Capabilities as `capsFlush` except that every fetched page has an
empty (zero-length, non-null) body. -/
def capsEmptyBody : Caps :=
  ⟨fun _ => .ok ["0.0.0.0"], fun _ => some "", fun _ => false, fun _ => false, fun b => b⟩

/-- Capabilities as `capsFlush` except that every fetch returns null
content (fetch failure). -/
def capsNoContent : Caps :=
  ⟨fun _ => .ok ["0.0.0.0"], fun _ => none, fun _ => false, fun _ => false, fun b => b⟩

/-- Capabilities as `capsFlush` except that the threads of each batch
write their outcomes in reverse spawn order. -/
def capsOrdB : Caps :=
  ⟨fun _ => .ok ["0.0.0.0"], fun _ => some "b", fun _ => false, fun _ => false, fun b => b.reverse⟩

/-- Capabilities as `capsFlush` except that the cancellation flag is
already set at every check. -/
def capsStopNow : Caps :=
  ⟨fun _ => .ok ["0.0.0.0"], fun _ => some "b", fun _ => false, fun _ => true, fun b => b⟩

/-- The run of `start` (after a successful TLD-list fetch) on the lines
`a b c d` with `maxthreads=1`, `checkcommon=false`, keyword `k` and
target `k.example`. -/
def runFlush : RunSt := startOn cfgFlush capsFlush "k" "k.example" ["a", "b", "c", "d"]

/-- A state in which `start` has already hit `return None`. -/
def haltedSt : RunSt := { initSt with halted := true }

/-! Dictionary lemmas. -/

theorem dkeys_nil : dkeys [] = [] := rfl

theorem dkeys_cons (p : String × Bool) (rest : List (String × Bool)) :
    dkeys (p :: rest) = p.1 :: dkeys rest := rfl

theorem dictGet_dictInsert_self (d : List (String × Bool)) (k : String) (v : Bool) :
    dictGet (dictInsert d k v) k = some v := by
  induction d with
  | nil => simp [dictInsert, dictGet]
  | cons p rest ih =>
    by_cases h : p.1 = k
    · simp [dictInsert, dictGet, h]
    · simp [dictInsert, dictGet, h, ih]

theorem dictGet_dictInsert_other (d : List (String × Bool)) (k u : String) (v : Bool)
    (h : u ≠ k) :
    dictGet (dictInsert d k v) u = dictGet d u := by
  have hku : ¬ (k = u) := Ne.symm h
  induction d with
  | nil => simp [dictInsert, dictGet, hku]
  | cons p rest ih =>
    by_cases hp : p.1 = k
    · have hpu : ¬ (p.1 = u) := by rw [hp]; exact hku
      simp [dictInsert, dictGet, hp, hku, hpu]
    · have hstep : dictInsert (p :: rest) k v = p :: dictInsert rest k v := by
        simp [dictInsert, hp]
      rw [hstep]
      by_cases hu : p.1 = u
      · simp [dictGet, hu]
      · simp [dictGet, hu, ih]

theorem dkeys_dictInsert (d : List (String × Bool)) (k : String) (v : Bool) :
    dkeys (dictInsert d k v) = if k ∈ dkeys d then dkeys d else dkeys d ++ [k] := by
  induction d with
  | nil => simp [dictInsert, dkeys]
  | cons p rest ih =>
    by_cases h : p.1 = k
    · simp [dictInsert, dkeys_cons, h]
    · have hne : ¬ (k = p.1) := fun e => h e.symm
      by_cases hm : k ∈ dkeys rest
      · simp [dictInsert, dkeys_cons, h, hm, hne, ih]
      · simp [dictInsert, dkeys_cons, h, hm, hne, ih]

theorem mem_dkeys_dictInsert (d : List (String × Bool)) (k u : String) (v : Bool) :
    u ∈ dkeys (dictInsert d k v) ↔ u ∈ dkeys d ∨ u = k := by
  rw [dkeys_dictInsert]
  by_cases h : k ∈ dkeys d
  · simp only [if_pos h]
    constructor
    · exact fun hu => Or.inl hu
    · rintro (hu | rfl)
      · exact hu
      · exact h
  · simp [if_neg h]

theorem dictInsert_of_not_mem (d : List (String × Bool)) (k : String) (v : Bool)
    (h : k ∉ dkeys d) :
    dictInsert d k v = d ++ [(k, v)] := by
  induction d with
  | nil => simp [dictInsert]
  | cons p rest ih =>
    simp only [dkeys_cons, List.mem_cons] at h
    push_neg at h
    have hp : ¬ (p.1 = k) := fun e => h.1 e.symm
    simp [dictInsert, hp, ih h.2]

theorem mem_dkeys_foldl (resolve : String → Except String (List String)) (t : String) :
    ∀ (order : List String) (acc : List (String × Bool)),
      (t ∈ dkeys (order.foldl (tryTld resolve) acc) ↔ t ∈ dkeys acc ∨ t ∈ order)
  | [], acc => by simp
  | o :: rest, acc => by
    rw [List.foldl_cons]
    rw [mem_dkeys_foldl resolve t rest (tryTld resolve acc o)]
    unfold tryTld
    rw [mem_dkeys_dictInsert]
    simp [List.mem_cons, or_assoc]

theorem nodup_dkeys_foldl (resolve : String → Except String (List String)) :
    ∀ (order : List String) (acc : List (String × Bool)),
      (dkeys acc).Nodup → (dkeys (order.foldl (tryTld resolve) acc)).Nodup
  | [], acc, h => by simpa using h
  | o :: rest, acc, h => by
    rw [List.foldl_cons]
    refine nodup_dkeys_foldl resolve rest (tryTld resolve acc o) ?_
    unfold tryTld
    rw [dkeys_dictInsert]
    by_cases hm : o ∈ dkeys acc
    · simpa [if_pos hm] using h
    · rw [if_neg hm]
      simp [List.nodup_append, h, hm]

theorem dictGet_foldl (resolve : String → Except String (List String)) (t : String) :
    ∀ (order : List String) (acc : List (String × Bool)),
      dictGet (order.foldl (tryTld resolve) acc) t =
        if t ∈ order then some (isOkB (resolve t)) else dictGet acc t
  | [], acc => by simp
  | o :: rest, acc => by
    rw [List.foldl_cons]
    rw [dictGet_foldl resolve t rest (tryTld resolve acc o)]
    by_cases hr : t ∈ rest
    · simp [hr, List.mem_cons]
    · by_cases ho : t = o
      · subst ho
        simp [hr, tryTld, dictGet_dictInsert_self]
      · simp [hr, ho, tryTld, dictGet_dictInsert_other acc o t _ ho]

theorem foldl_tryTld_eq_map (resolve : String → Except String (List String)) :
    ∀ (order : List String) (acc : List (String × Bool)),
      (∀ t ∈ order, t ∉ dkeys acc) → order.Nodup →
      order.foldl (tryTld resolve) acc =
        acc ++ order.map (fun t => (t, isOkB (resolve t)))
  | [], acc, _, _ => by simp
  | o :: rest, acc, hd, hn => by
    rw [List.foldl_cons]
    have ho : o ∉ dkeys acc := hd o (List.mem_cons_self o rest)
    have hstep : tryTld resolve acc o = acc ++ [(o, isOkB (resolve o))] :=
      dictInsert_of_not_mem acc o _ ho
    rw [hstep]
    rw [foldl_tryTld_eq_map resolve rest (acc ++ [(o, isOkB (resolve o))]) ?_ hn.of_cons]
    · simp
    · intro t ht
      have h1 : t ∉ dkeys acc := hd t (List.mem_cons_of_mem o ht)
      have h2 : t ≠ o := fun e => (List.nodup_cons.mp hn).1 (e ▸ ht)
      have hk : dkeys (acc ++ [(o, isOkB (resolve o))]) = dkeys acc ++ [o] := by
        simp [dkeys]
      rw [hk, List.mem_append]
      push_neg
      exact ⟨h1, by simpa using h2⟩

theorem runThreads_eq_map (resolve : String → Except String (List String))
    (order : List String) (hn : order.Nodup) :
    runThreads resolve order = order.map (fun t => (t, isOkB (resolve t))) := by
  have h := foldl_tryTld_eq_map resolve order [] (by simp [dkeys]) hn
  simpa [runThreads] using h

/-! Lemmas about `sendEvent`. -/

theorem sendEvent_base (cfg : Config) (caps : Caps) (base : String) (s : RunSt) :
    sendEvent cfg caps base s base = s := by
  simp [sendEvent]

theorem sendEvent_results_of_ne (cfg : Config) (caps : Caps) (base : String)
    (s : RunSt) (r : String) (h : r ≠ base) :
    (sendEvent cfg caps base s r).results = s.results ++ [r] := by
  simp only [sendEvent, if_neg h]
  by_cases ha : cfg.activeonly
  · by_cases hs : caps.stop s.checks
    · simp [ha, hs]
    · cases hf : caps.fetch ("http://" ++ r) <;> simp [ha, hs, hf]
  · simp [ha]

theorem sendEvent_events_cases (cfg : Config) (caps : Caps) (base : String)
    (s : RunSt) (r : String) :
    (sendEvent cfg caps base s r).events = s.events ∨
      ((sendEvent cfg caps base s r).events = s.events ++ [r] ∧ r ≠ base) := by
  by_cases h : r = base
  · subst h
    left
    rw [sendEvent_base]
  · simp only [sendEvent, if_neg h]
    by_cases ha : cfg.activeonly
    · by_cases hs : caps.stop s.checks
      · left
        simp [ha, hs]
      · cases hf : caps.fetch ("http://" ++ r)
        · left
          simp [ha, hs, hf]
        · right
          exact ⟨by simp [ha, hs, hf], h⟩
    · right
      exact ⟨by simp [ha], h⟩

theorem sendEvent_events_inactive (cfg : Config) (caps : Caps) (base : String)
    (s : RunSt) (r : String) (ha : cfg.activeonly = false) (h : r ≠ base) :
    (sendEvent cfg caps base s r).events = s.events ++ [r] := by
  simp [sendEvent, if_neg h, ha]

theorem sendEvent_events_active (cfg : Config) (caps : Caps) (base : String)
    (s : RunSt) (r : String) (ha : cfg.activeonly = true)
    (hs : caps.stop s.checks = false) (h : r ≠ base) :
    (sendEvent cfg caps base s r).events =
      if (caps.fetch ("http://" ++ r)).isSome then s.events ++ [r] else s.events := by
  simp only [sendEvent, if_neg h, ha]
  cases hf : caps.fetch ("http://" ++ r) <;> simp [hs, hf]

theorem sendEvent_events_count (cfg : Config) (caps : Caps) (base : String)
    (s : RunSt) (r t : String) :
    (sendEvent cfg caps base s r).events.count t ≤
      s.events.count t + (if t = r then 1 else 0) := by
  rcases sendEvent_events_cases cfg caps base s r with h | ⟨h, _⟩
  · rw [h]
    by_cases ht : t = r <;> simp [ht]
  · rw [h, List.count_append]
    by_cases ht : t = r <;> simp [ht]

theorem sendEvent_events_mono (cfg : Config) (caps : Caps) (base : String)
    (s : RunSt) (r : String) :
    ∃ t1, (sendEvent cfg caps base s r).events = s.events ++ t1 := by
  rcases sendEvent_events_cases cfg caps base s r with h | ⟨h, _⟩
  · exact ⟨[], by simpa using h⟩
  · exact ⟨[r], h⟩

theorem sendEvent_clean (cfg : Config) (caps : Caps) (base : String)
    (s : RunSt) (r : String) (h1 : base ∉ s.results) (h2 : base ∉ s.events) :
    base ∉ (sendEvent cfg caps base s r).results ∧
      base ∉ (sendEvent cfg caps base s r).events := by
  by_cases h : r = base
  · subst h
    rw [sendEvent_base]
    exact ⟨h1, h2⟩
  · constructor
    · rw [sendEvent_results_of_ne cfg caps base s r h]
      simp [h1, Ne.symm h]
    · rcases sendEvent_events_cases cfg caps base s r with he | ⟨he, _⟩
      · rw [he]
        exact h2
      · rw [he]
        simp [h2, Ne.symm h]

/-! Lemmas about the reporting loop and `tryTldWrapper`. -/

theorem emitStep_events_mono (cfg : Config) (caps : Caps) (base : String)
    (s : RunSt) (p : String × Bool) :
    ∃ t1, (emitStep cfg caps base s p).events = s.events ++ t1 := by
  unfold emitStep
  by_cases hp : p.2
  · rw [if_pos hp]
    exact sendEvent_events_mono cfg caps base s p.1
  · rw [if_neg hp]
    exact ⟨[], by simp⟩

theorem emitStep_clean (cfg : Config) (caps : Caps) (base : String)
    (s : RunSt) (p : String × Bool) (h1 : base ∉ s.results) (h2 : base ∉ s.events) :
    base ∉ (emitStep cfg caps base s p).results ∧
      base ∉ (emitStep cfg caps base s p).events := by
  unfold emitStep
  by_cases hp : p.2
  · rw [if_pos hp]
    exact sendEvent_clean cfg caps base s p.1 h1 h2
  · rw [if_neg hp]
    exact ⟨h1, h2⟩

theorem emitLoop_events_mono (cfg : Config) (caps : Caps) (base : String) :
    ∀ (d : List (String × Bool)) (s : RunSt),
      ∃ t1, (emitLoop cfg caps base s d).events = s.events ++ t1
  | [], s => ⟨[], by simp [emitLoop]⟩
  | p :: rest, s => by
    unfold emitLoop
    rw [List.foldl_cons]
    obtain ⟨t1, h1⟩ := emitStep_events_mono cfg caps base s p
    obtain ⟨t2, h2⟩ := emitLoop_events_mono cfg caps base rest (emitStep cfg caps base s p)
    refine ⟨t1 ++ t2, ?_⟩
    unfold emitLoop at h2
    rw [h2, h1, List.append_assoc]

theorem emitLoop_clean (cfg : Config) (caps : Caps) (base : String) :
    ∀ (d : List (String × Bool)) (s : RunSt),
      base ∉ s.results → base ∉ s.events →
      base ∉ (emitLoop cfg caps base s d).results ∧
        base ∉ (emitLoop cfg caps base s d).events
  | [], s, h1, h2 => ⟨h1, h2⟩
  | p :: rest, s, h1, h2 => by
    unfold emitLoop
    rw [List.foldl_cons]
    obtain ⟨g1, g2⟩ := emitStep_clean cfg caps base s p h1 h2
    exact emitLoop_clean cfg caps base rest (emitStep cfg caps base s p) g1 g2

theorem emitLoop_events_count (cfg : Config) (caps : Caps) (base : String) (t : String) :
    ∀ (d : List (String × Bool)) (s : RunSt), (dkeys d).Nodup →
      (emitLoop cfg caps base s d).events.count t ≤
        s.events.count t + (if t ∈ dkeys d then 1 else 0)
  | [], s, _ => by simp [emitLoop, dkeys]
  | (k, v) :: rest, s, hn => by
    have hk : k ∉ dkeys rest := by
      have := (List.nodup_cons.mp (by simpa [dkeys_cons] using hn)).1
      exact this
    have hrest : (dkeys rest).Nodup := by
      have := (List.nodup_cons.mp (by simpa [dkeys_cons] using hn)).2
      exact this
    unfold emitLoop
    rw [List.foldl_cons]
    have hstep : (emitStep cfg caps base s (k, v)).events.count t ≤
        s.events.count t + (if t = k then 1 else 0) := by
      unfold emitStep
      by_cases hv : v
      · simpa [hv] using sendEvent_events_count cfg caps base s k t
      · simp only [hv]
        by_cases ht : t = k <;> simp [ht]
    have hih := emitLoop_events_count cfg caps base t rest (emitStep cfg caps base s (k, v)) hrest
    unfold emitLoop at hih
    by_cases ht : t = k
    · subst ht
      rw [if_neg hk] at hih
      rw [if_pos rfl] at hstep
      rw [dkeys_cons]
      simp only [List.mem_cons, true_or, if_pos]
      omega
    · rw [if_neg ht] at hstep
      rw [dkeys_cons]
      by_cases hm : t ∈ dkeys rest
      · rw [if_pos hm] at hih
        simp only [List.mem_cons, hm, or_true, if_pos]
        omega
      · rw [if_neg hm] at hih
        have : ¬ (t ∈ k :: dkeys rest) := by simp [ht, hm]
        rw [if_neg this]
        omega

theorem emitLoop_map_inactive (cfg : Config) (caps : Caps) (base : String)
    (ha : cfg.activeonly = false) :
    ∀ (b : List String) (s : RunSt), (∀ u ∈ b, u ≠ base) →
      (emitLoop cfg caps base s (b.map (fun u => (u, isOkB (caps.resolve u))))).events
        = s.events ++ b.filter (fun u => isOkB (caps.resolve u))
  | [], s, _ => by simp [emitLoop]
  | u :: rest, s, hb => by
    have hu : u ≠ base := hb u (List.mem_cons_self u rest)
    unfold emitLoop
    rw [List.map_cons, List.foldl_cons]
    have hih := emitLoop_map_inactive cfg caps base ha rest
      (emitStep cfg caps base s (u, isOkB (caps.resolve u)))
      (fun w hw => hb w (List.mem_cons_of_mem u hw))
    unfold emitLoop at hih
    rw [hih]
    by_cases hr : isOkB (caps.resolve u)
    · have hstep : emitStep cfg caps base s (u, isOkB (caps.resolve u)) =
          sendEvent cfg caps base s u := by
        unfold emitStep
        simp [hr]
      rw [hstep, sendEvent_events_inactive cfg caps base s u ha hu]
      simp [List.filter_cons, hr, List.append_assoc]
    · have hstep : emitStep cfg caps base s (u, isOkB (caps.resolve u)) = s := by
        unfold emitStep
        simp [hr]
      rw [hstep]
      simp [List.filter_cons, hr]

theorem tryTldWrapper_events_mono (cfg : Config) (caps : Caps) (base : String)
    (s : RunSt) (b : List String) :
    ∃ t1, (tryTldWrapper cfg caps base s b).events = s.events ++ t1 := by
  unfold tryTldWrapper
  exact emitLoop_events_mono cfg caps base _ { s with batches := s.batches ++ [b] }

theorem tryTldWrapper_clean (cfg : Config) (caps : Caps) (base : String)
    (s : RunSt) (b : List String) (h1 : base ∉ s.results) (h2 : base ∉ s.events) :
    base ∉ (tryTldWrapper cfg caps base s b).results ∧
      base ∉ (tryTldWrapper cfg caps base s b).events := by
  unfold tryTldWrapper
  exact emitLoop_clean cfg caps base _ { s with batches := s.batches ++ [b] } h1 h2

/-! Lemmas about the loop steps of `start`. -/

theorem foldl_events_mono {α : Type} (f : RunSt → α → RunSt)
    (hf : ∀ (s : RunSt) (a : α), ∃ t1, (f s a).events = s.events ++ t1) :
    ∀ (l : List α) (s : RunSt), ∃ t1, (l.foldl f s).events = s.events ++ t1
  | [], s => ⟨[], by simp⟩
  | a :: rest, s => by
    rw [List.foldl_cons]
    obtain ⟨t1, h1⟩ := hf s a
    obtain ⟨t2, h2⟩ := foldl_events_mono f hf rest (f s a)
    exact ⟨t1 ++ t2, by rw [h2, h1, List.append_assoc]⟩

theorem foldl_clean {α : Type} (base : String) (f : RunSt → α → RunSt)
    (hf : ∀ (s : RunSt) (a : α), base ∉ s.results → base ∉ s.events →
      base ∉ (f s a).results ∧ base ∉ (f s a).events) :
    ∀ (l : List α) (s : RunSt), base ∉ s.results → base ∉ s.events →
      base ∉ (l.foldl f s).results ∧ base ∉ (l.foldl f s).events
  | [], _, h1, h2 => ⟨h1, h2⟩
  | a :: rest, s, h1, h2 => by
    rw [List.foldl_cons]
    obtain ⟨g1, g2⟩ := hf s a h1 h2
    exact foldl_clean base f hf rest (f s a) g1 g2

theorem stepSub_halted (cfg : Config) (caps : Caps) (keyword base tld : String)
    (s : RunSt) (subtld : String) (h : s.halted = true) :
    stepSub cfg caps keyword base tld s subtld = s := by
  simp [stepSub, h]

theorem stepTld_halted (cfg : Config) (caps : Caps) (keyword base : String)
    (s : RunSt) (tld : String) (h : s.halted = true) :
    stepTld cfg caps keyword base s tld = s := by
  simp [stepTld, h]

theorem finishRun_halted (cfg : Config) (caps : Caps) (base : String)
    (s : RunSt) (h : s.halted = true) :
    finishRun cfg caps base s = s := by
  simp [finishRun, h]

theorem stepSub_stop (cfg : Config) (caps : Caps) (keyword base tld : String)
    (s : RunSt) (subtld : String) (hh : s.halted = false)
    (hstop : caps.stop s.checks = true) :
    stepSub cfg caps keyword base tld s subtld =
      { s with checks := s.checks + 1, halted := true } := by
  simp [stepSub, hh, hstop]

theorem stepTld_stop (cfg : Config) (caps : Caps) (keyword base : String)
    (s : RunSt) (tld : String) (hh : s.halted = false)
    (hc : startsWithHash tld = false)
    (hw : (cfg.skipwildcards && caps.wild tld) = false)
    (hstop : caps.stop s.checks = true) :
    stepTld cfg caps keyword base s tld =
      { s with checks := s.checks + 1, halted := true } := by
  simp [stepTld, hh, hc, hw, hstop]

theorem stepSub_eq_wild (cfg : Config) (caps : Caps) (keyword base tld : String)
    (s : RunSt) (subtld : String) (hh : s.halted = false)
    (hstop : caps.stop s.checks = false)
    (hw : (cfg.skipwildcards && caps.wild (subtld ++ "." ++ tld)) = true) :
    stepSub cfg caps keyword base tld s subtld = { s with checks := s.checks + 1 } := by
  simp [stepSub, hh, hstop, hw]

theorem stepSub_eq_append (cfg : Config) (caps : Caps) (keyword base tld : String)
    (s : RunSt) (subtld : String) (hh : s.halted = false)
    (hstop : caps.stop s.checks = false)
    (hw : (cfg.skipwildcards && caps.wild (subtld ++ "." ++ tld)) = false)
    (hlen : s.tl.length ≤ cfg.maxthreads) :
    stepSub cfg caps keyword base tld s subtld =
      { s with checks := s.checks + 1,
               tl := s.tl ++ [keyword ++ "." ++ subtld ++ "." ++ tld] } := by
  simp [stepSub, hh, hstop, hw, hlen]

theorem stepSub_eq_flush (cfg : Config) (caps : Caps) (keyword base tld : String)
    (s : RunSt) (subtld : String) (hh : s.halted = false)
    (hstop : caps.stop s.checks = false)
    (hw : (cfg.skipwildcards && caps.wild (subtld ++ "." ++ tld)) = false)
    (hlen : ¬ s.tl.length ≤ cfg.maxthreads) :
    stepSub cfg caps keyword base tld s subtld =
      { tryTldWrapper cfg caps base { s with checks := s.checks + 1 } s.tl
          with tl := [] } := by
  simp [stepSub, hh, hstop, hw, hlen]

theorem stepTld_eq_keep (cfg : Config) (caps : Caps) (keyword base : String)
    (s : RunSt) (tld : String) (hh : s.halted = false)
    (hc : startsWithHash tld = false)
    (hw : (cfg.skipwildcards && caps.wild tld) = false)
    (hstop : caps.stop s.checks = false)
    (hlen : s.tl.length ≤ cfg.maxthreads) :
    stepTld cfg caps keyword base s tld =
      (if cfg.checkcommon then
        cfg.commontlds.foldl (stepSub cfg caps keyword base tld)
          { s with checks := s.checks + 1, tl := s.tl ++ [keyword ++ "." ++ tld] }
      else
        { s with checks := s.checks + 1, tl := s.tl ++ [keyword ++ "." ++ tld] }) := by
  by_cases hcc : cfg.checkcommon <;> simp [stepTld, hh, hc, hw, hstop, hlen, hcc]

theorem stepTld_eq_flush (cfg : Config) (caps : Caps) (keyword base : String)
    (s : RunSt) (tld : String) (hh : s.halted = false)
    (hc : startsWithHash tld = false)
    (hw : (cfg.skipwildcards && caps.wild tld) = false)
    (hstop : caps.stop s.checks = false)
    (hlen : ¬ s.tl.length ≤ cfg.maxthreads) :
    stepTld cfg caps keyword base s tld =
      (if cfg.checkcommon then
        cfg.commontlds.foldl (stepSub cfg caps keyword base tld)
          { tryTldWrapper cfg caps base { s with checks := s.checks + 1 } s.tl
              with tl := [] }
      else
        { tryTldWrapper cfg caps base { s with checks := s.checks + 1 } s.tl
            with tl := [] }) := by
  by_cases hcc : cfg.checkcommon <;> simp [stepTld, hh, hc, hw, hstop, hlen, hcc]

theorem finishRun_eq_flush (cfg : Config) (caps : Caps) (base : String)
    (s : RunSt) (hh : s.halted = false) (hlen : 0 < s.tl.length) :
    finishRun cfg caps base s =
      { tryTldWrapper cfg caps base s s.tl with tl := [] } := by
  simp [finishRun, hh, hlen]

theorem stepSub_events_mono (cfg : Config) (caps : Caps) (keyword base tld : String)
    (s : RunSt) (subtld : String) :
    ∃ t1, (stepSub cfg caps keyword base tld s subtld).events = s.events ++ t1 := by
  by_cases hh : s.halted
  · exact ⟨[], by simp [stepSub_halted cfg caps keyword base tld s subtld hh]⟩
  have hhf : s.halted = false := by simpa using hh
  by_cases hstop : caps.stop s.checks
  · exact ⟨[], by simp [stepSub_stop cfg caps keyword base tld s subtld hhf hstop]⟩
  have hsf : caps.stop s.checks = false := by simpa using hstop
  by_cases hw : cfg.skipwildcards && caps.wild (subtld ++ "." ++ tld)
  · exact ⟨[], by simp [stepSub_eq_wild cfg caps keyword base tld s subtld hhf hsf hw]⟩
  have hwf : (cfg.skipwildcards && caps.wild (subtld ++ "." ++ tld)) = false := by
    simpa using hw
  by_cases hlen : s.tl.length ≤ cfg.maxthreads
  · exact ⟨[], by
      simp [stepSub_eq_append cfg caps keyword base tld s subtld hhf hsf hwf hlen]⟩
  · obtain ⟨t1, h1⟩ :=
      tryTldWrapper_events_mono cfg caps base { s with checks := s.checks + 1 } s.tl
    refine ⟨t1, ?_⟩
    rw [stepSub_eq_flush cfg caps keyword base tld s subtld hhf hsf hwf hlen]
    simpa using h1

theorem stepSub_clean (cfg : Config) (caps : Caps) (keyword base tld : String)
    (s : RunSt) (subtld : String) (h1 : base ∉ s.results) (h2 : base ∉ s.events) :
    base ∉ (stepSub cfg caps keyword base tld s subtld).results ∧
      base ∉ (stepSub cfg caps keyword base tld s subtld).events := by
  by_cases hh : s.halted
  · rw [stepSub_halted cfg caps keyword base tld s subtld hh]
    exact ⟨h1, h2⟩
  have hhf : s.halted = false := by simpa using hh
  by_cases hstop : caps.stop s.checks
  · rw [stepSub_stop cfg caps keyword base tld s subtld hhf hstop]
    exact ⟨h1, h2⟩
  have hsf : caps.stop s.checks = false := by simpa using hstop
  by_cases hw : cfg.skipwildcards && caps.wild (subtld ++ "." ++ tld)
  · rw [stepSub_eq_wild cfg caps keyword base tld s subtld hhf hsf hw]
    exact ⟨h1, h2⟩
  have hwf : (cfg.skipwildcards && caps.wild (subtld ++ "." ++ tld)) = false := by
    simpa using hw
  by_cases hlen : s.tl.length ≤ cfg.maxthreads
  · rw [stepSub_eq_append cfg caps keyword base tld s subtld hhf hsf hwf hlen]
    exact ⟨h1, h2⟩
  · obtain ⟨g1, g2⟩ :=
      tryTldWrapper_clean cfg caps base { s with checks := s.checks + 1 } s.tl
        (by simpa using h1) (by simpa using h2)
    rw [stepSub_eq_flush cfg caps keyword base tld s subtld hhf hsf hwf hlen]
    exact ⟨by simpa using g1, by simpa using g2⟩

theorem stepTld_events_mono (cfg : Config) (caps : Caps) (keyword base : String)
    (s : RunSt) (tld : String) :
    ∃ t1, (stepTld cfg caps keyword base s tld).events = s.events ++ t1 := by
  by_cases hh : s.halted
  · exact ⟨[], by simp [stepTld_halted cfg caps keyword base s tld hh]⟩
  have hhf : s.halted = false := by simpa using hh
  by_cases hc : startsWithHash tld
  · exact ⟨[], by simp [stepTld, hhf, hc]⟩
  have hcf : startsWithHash tld = false := by simpa using hc
  by_cases hw : cfg.skipwildcards && caps.wild tld
  · exact ⟨[], by simp [stepTld, hhf, hcf, hw]⟩
  have hwf : (cfg.skipwildcards && caps.wild tld) = false := by simpa using hw
  by_cases hstop : caps.stop s.checks
  · exact ⟨[], by simp [stepTld_stop cfg caps keyword base s tld hhf hcf hwf hstop]⟩
  have hsf : caps.stop s.checks = false := by simpa using hstop
  have hbody : ∀ s2 : RunSt, ∃ t2,
      ((if cfg.checkcommon then
          cfg.commontlds.foldl (stepSub cfg caps keyword base tld) s2
        else s2) : RunSt).events = s2.events ++ t2 := by
    intro s2
    by_cases hcc : cfg.checkcommon
    · rw [if_pos hcc]
      exact foldl_events_mono (stepSub cfg caps keyword base tld)
        (stepSub_events_mono cfg caps keyword base tld) cfg.commontlds s2
    · rw [if_neg hcc]
      exact ⟨[], by simp⟩
  by_cases hlen : s.tl.length ≤ cfg.maxthreads
  · obtain ⟨t2, h2⟩ := hbody
      { s with checks := s.checks + 1, tl := s.tl ++ [keyword ++ "." ++ tld] }
    refine ⟨t2, ?_⟩
    rw [stepTld_eq_keep cfg caps keyword base s tld hhf hcf hwf hsf hlen]
    simpa using h2
  · obtain ⟨t1, h1⟩ :=
      tryTldWrapper_events_mono cfg caps base { s with checks := s.checks + 1 } s.tl
    obtain ⟨t2, h2⟩ := hbody
      { tryTldWrapper cfg caps base { s with checks := s.checks + 1 } s.tl
          with tl := [] }
    refine ⟨t1 ++ t2, ?_⟩
    rw [stepTld_eq_flush cfg caps keyword base s tld hhf hcf hwf hsf hlen]
    rw [h2]
    have h1e : ({ tryTldWrapper cfg caps base { s with checks := s.checks + 1 } s.tl
        with tl := ([] : List String) } : RunSt).events = s.events ++ t1 := by
      simpa using h1
    rw [h1e, List.append_assoc]

theorem stepTld_clean (cfg : Config) (caps : Caps) (keyword base : String)
    (s : RunSt) (tld : String) (h1 : base ∉ s.results) (h2 : base ∉ s.events) :
    base ∉ (stepTld cfg caps keyword base s tld).results ∧
      base ∉ (stepTld cfg caps keyword base s tld).events := by
  by_cases hh : s.halted
  · rw [stepTld_halted cfg caps keyword base s tld hh]
    exact ⟨h1, h2⟩
  have hhf : s.halted = false := by simpa using hh
  by_cases hc : startsWithHash tld
  · constructor <;> simp [stepTld, hhf, hc, h1, h2]
  have hcf : startsWithHash tld = false := by simpa using hc
  by_cases hw : cfg.skipwildcards && caps.wild tld
  · constructor <;> simp [stepTld, hhf, hcf, hw, h1, h2]
  have hwf : (cfg.skipwildcards && caps.wild tld) = false := by simpa using hw
  by_cases hstop : caps.stop s.checks
  · rw [stepTld_stop cfg caps keyword base s tld hhf hcf hwf hstop]
    exact ⟨h1, h2⟩
  have hsf : caps.stop s.checks = false := by simpa using hstop
  have hbody : ∀ s2 : RunSt, base ∉ s2.results → base ∉ s2.events →
      base ∉ ((if cfg.checkcommon then
          cfg.commontlds.foldl (stepSub cfg caps keyword base tld) s2
        else s2) : RunSt).results ∧
      base ∉ ((if cfg.checkcommon then
          cfg.commontlds.foldl (stepSub cfg caps keyword base tld) s2
        else s2) : RunSt).events := by
    intro s2 g1 g2
    by_cases hcc : cfg.checkcommon
    · rw [if_pos hcc]
      exact foldl_clean base (stepSub cfg caps keyword base tld)
        (fun s a => stepSub_clean cfg caps keyword base tld s a)
        cfg.commontlds s2 g1 g2
    · rw [if_neg hcc]
      exact ⟨g1, g2⟩
  by_cases hlen : s.tl.length ≤ cfg.maxthreads
  · obtain ⟨g1, g2⟩ := hbody
      { s with checks := s.checks + 1, tl := s.tl ++ [keyword ++ "." ++ tld] }
      (by simpa using h1) (by simpa using h2)
    rw [stepTld_eq_keep cfg caps keyword base s tld hhf hcf hwf hsf hlen]
    exact ⟨g1, g2⟩
  · obtain ⟨w1, w2⟩ :=
      tryTldWrapper_clean cfg caps base { s with checks := s.checks + 1 } s.tl
        (by simpa using h1) (by simpa using h2)
    obtain ⟨g1, g2⟩ := hbody
      { tryTldWrapper cfg caps base { s with checks := s.checks + 1 } s.tl
          with tl := [] }
      (by simpa using w1) (by simpa using w2)
    rw [stepTld_eq_flush cfg caps keyword base s tld hhf hcf hwf hsf hlen]
    exact ⟨g1, g2⟩

theorem finishRun_clean (cfg : Config) (caps : Caps) (base : String)
    (s : RunSt) (h1 : base ∉ s.results) (h2 : base ∉ s.events) :
    base ∉ (finishRun cfg caps base s).results ∧
      base ∉ (finishRun cfg caps base s).events := by
  by_cases hh : s.halted
  · rw [finishRun_halted cfg caps base s hh]
    exact ⟨h1, h2⟩
  have hhf : s.halted = false := by simpa using hh
  by_cases hlen : 0 < s.tl.length
  · obtain ⟨g1, g2⟩ := tryTldWrapper_clean cfg caps base s s.tl h1 h2
    rw [finishRun_eq_flush cfg caps base s hhf hlen]
    exact ⟨by simpa using g1, by simpa using g2⟩
  · have : finishRun cfg caps base s = s := by simp [finishRun, hhf, hlen]
    rw [this]
    exact ⟨h1, h2⟩

theorem startOn_clean (cfg : Config) (caps : Caps) (keyword base : String)
    (lines : List String) :
    base ∉ (startOn cfg caps keyword base lines).results ∧
      base ∉ (startOn cfg caps keyword base lines).events := by
  unfold startOn
  have h := foldl_clean base (stepTld cfg caps keyword base)
    (fun s a => stepTld_clean cfg caps keyword base s a) lines initSt
    (by simp [initSt]) (by simp [initSt])
  exact finishRun_clean cfg caps base _ h.1 h.2

/-! Theorems settling the claims. -/

/-- C1 (counterexample): with `skipwildcards` and `checkcommon` set,
common sub-TLD list `[com]`, and the TLD list consisting of the single
line `x`, where zone `x` is a wildcard but zone `com.x` is not and every
lookup resolves: the run generates nothing at all — in particular the
sub-TLD candidate `k.com.x` is neither dispatched nor reported.  This
refutes the claim that when a TLD is detected as a wildcard zone only
the bare `keyword.tld` candidate is skipped while the sub-TLD
combinations `keyword.s.tld` are still considered: the code skips the
whole TLD iteration with `continue`. -/
theorem c1_counterexample :
    (startOn cfgC1 capsC1 "k" "k.example" ["x"]).batches = [] ∧
    (startOn cfgC1 capsC1 "k" "k.example" ["x"]).events = [] ∧
    cfgC1.skipwildcards = true ∧ cfgC1.checkcommon = true ∧
    capsC1.wild "x" = true ∧ capsC1.wild "com.x" = false := by
  decide

/-- C1 (amended): when `skipwildcards` is set and the TLD is detected as
a wildcard zone, `start` skips the entire iteration for that TLD
(`continue`): neither the bare candidate `keyword.tld` nor any sub-TLD
candidate `keyword.s.tld` is generated, and the run state is unchanged
by that line. -/
theorem c1_amended_wildcard_tld_skipped_entirely (cfg : Config) (caps : Caps)
    (keyword base : String) (s : RunSt) (tld : String)
    (hsw : cfg.skipwildcards = true) (hw : caps.wild tld = true) :
    stepTld cfg caps keyword base s tld = s := by
  by_cases hh : s.halted
  · exact stepTld_halted cfg caps keyword base s tld hh
  by_cases hc : startsWithHash tld
  · simp [stepTld, hh, hc]
  · simp [stepTld, hh, hc, hsw, hw]

/-- C1 (witness): the amended claim applied at the concrete wildcard
zone `x` of `capsC1`. -/
theorem c1_witness :
    stepTld cfgC1 capsC1 "k" "k.example" initSt "x" = initSt :=
  c1_amended_wildcard_tld_skipped_entirely cfgC1 capsC1 "k" "k.example" initSt "x"
    rfl (by decide)

/-- C2 (code bug): with `checkcommon=false`, `maxthreads=1`, no wildcard
zones, no cancellation, every lookup succeeding, and the four
non-comment TLD lines `a b c d`, the run dispatches only the candidates
`k.a, k.b, k.d`: the candidate `k.c` is generated but silently dropped
at the batch-flush boundary (the `else` branch flushes the full batch
and never appends the current candidate), contradicting the claim that
exactly one candidate per non-comment TLD line is dispatched with none
dropped at a flush. -/
theorem c2_candidate_dropped_at_flush :
    runFlush.batches = [["k.a", "k.b"], ["k.d"]] ∧
    "k.c" ∉ runFlush.batches.flatten := by
  decide

/-- C3 (code bug): with `maxthreads=1` the first dispatched batch of the
same run holds 2 = maxthreads+1 candidates: the threshold check
`len(targetList) <= maxthreads` lets the batch grow to maxthreads+1
before flushing, contradicting the claimed bound that no dispatched
batch ever contains maxthreads+1 candidates. -/
theorem c3_batch_exceeds_maxthreads :
    cfgFlush.maxthreads = 1 ∧ runFlush.batches.map List.length = [2, 1] := by
  decide

/-- C4 (counterexample): with `activeonly` set and a fetch returning an
empty but non-null body, the event for a resolving candidate is
emitted: the code tests only `content != None`, so an empty body does
not suppress the candidate, refuting the claim that the content check
accepts only non-empty bodies. -/
theorem c4_counterexample_empty_body_accepted :
    (sendEvent cfgActive capsEmptyBody "k.example" initSt "k.com").events = ["k.com"] ∧
    capsEmptyBody.fetch "http://k.com" = some "" ∧
    cfgActive.activeonly = true := by
  decide

/-- C4 (amended): with `activeonly` set, no cancellation pending at the
check, and a candidate other than the target, the event is emitted iff
the fetched content of `http://<candidate>` is non-null; the emptiness
of the body is never examined (a fetch error, i.e. null content,
suppresses the event). -/
theorem c4_amended_accepts_iff_nonnull (cfg : Config) (caps : Caps)
    (base : String) (s : RunSt) (r : String) (ha : cfg.activeonly = true)
    (hs : caps.stop s.checks = false) (hr : r ≠ base) :
    (sendEvent cfg caps base s r).events =
      if (caps.fetch ("http://" ++ r)).isSome then s.events ++ [r] else s.events :=
  sendEvent_events_active cfg caps base s r ha hs hr

/-- C4 (witness): the amended claim at the empty-body capabilities. -/
theorem c4_witness :
    (sendEvent cfgActive capsEmptyBody "k.example" initSt "k.com").events =
      (if (capsEmptyBody.fetch ("http://" ++ "k.com")).isSome then
        initSt.events ++ ["k.com"] else initSt.events) :=
  c4_amended_accepts_iff_nonnull cfgActive capsEmptyBody "k.example" initSt "k.com"
    rfl rfl (by decide)

/-- C5 (counterexample): with `activeonly` set and every fetch failing
(null content), a resolving candidate is still appended to
`self.results` (and no event is emitted): the append happens before the
content check, refuting the claim that a candidate whose content fetch
fails is not recorded as a Result. -/
theorem c5_counterexample_recorded_without_content :
    (sendEvent cfgActive capsNoContent "k.example" initSt "k.com").results = ["k.com"] ∧
    (sendEvent cfgActive capsNoContent "k.example" initSt "k.com").events = [] := by
  decide

/-- C5 (amended): every candidate other than the target handed to
`sendEvent` is appended to `self.results` unconditionally, before and
independently of any content verification; only the listener
notification is gated by the content probe. -/
theorem c5_amended_results_appended_unconditionally (cfg : Config) (caps : Caps)
    (base : String) (s : RunSt) (r : String) (hr : r ≠ base) :
    (sendEvent cfg caps base s r).results = s.results ++ [r] :=
  sendEvent_results_of_ne cfg caps base s r hr

/-- C5 (witness): the amended claim at the failing-fetch capabilities. -/
theorem c5_witness :
    (sendEvent cfgActive capsNoContent "k.example" initSt "k.com").results =
      initSt.results ++ ["k.com"] :=
  c5_amended_results_appended_unconditionally cfgActive capsNoContent "k.example"
    initSt "k.com" (by decide)

/-- C6: a candidate equal to the target domain is neither appended to
the results list nor emitted (`sendEvent` returns the state unchanged on
it), and consequently over any whole run the target domain never appears
in the results list nor among the emitted events. -/
theorem c6_no_result_equals_target (cfg : Config) (caps : Caps)
    (keyword base : String) (lines : List String) (s : RunSt) :
    sendEvent cfg caps base s base = s ∧
    base ∉ (startOn cfg caps keyword base lines).results ∧
    base ∉ (startOn cfg caps keyword base lines).events :=
  ⟨sendEvent_base cfg caps base s,
    (startOn_clean cfg caps keyword base lines).1,
    (startOn_clean cfg caps keyword base lines).2⟩

/-- C7: `tryTld` records, under the candidate's own key, exactly whether
its lookup succeeded (any raised exception is absorbed as `false`),
leaves every other key untouched, and in a whole batch each candidate's
final outcome is determined solely by its own lookup, independent of its
siblings. -/
theorem c7_tryTld_isolated (resolve : String → Except String (List String))
    (d : List (String × Bool)) (t : String) :
    dictGet (tryTld resolve d t) t = some (isOkB (resolve t)) ∧
    (∀ u, u ≠ t → dictGet (tryTld resolve d t) u = dictGet d u) ∧
    (∀ order : List String,
      dictGet (runThreads resolve order) t =
        if t ∈ order then some (isOkB (resolve t)) else none) := by
  refine ⟨dictGet_dictInsert_self d t _,
    fun u hu => dictGet_dictInsert_other d t u _ hu, ?_⟩
  intro order
  have h := dictGet_foldl resolve t order []
  simpa [runThreads, dictGet] using h

/-- C7 (witness): the theorem at a concrete always-resolving resolver,
empty dict, target `k.a`, sibling key `k.b` and batch `[k.a, k.b]`. -/
theorem c7_witness :
    dictGet (tryTld capsFlush.resolve [] "k.a") "k.a" = some true ∧
    dictGet (tryTld capsFlush.resolve [] "k.a") "k.b" = dictGet [] "k.b" ∧
    dictGet (runThreads capsFlush.resolve ["k.a", "k.b"]) "k.a" =
      (if "k.a" ∈ (["k.a", "k.b"] : List String) then some true else none) := by
  obtain ⟨h1, h2, h3⟩ := c7_tryTld_isolated capsFlush.resolve [] "k.a"
  exact ⟨h1, h2 "k.b" (by decide), h3 ["k.a", "k.b"]⟩

/-- C8 (counterexample): two runs over the same batch `[k.a, k.b]` with
identical TLD list, identical resolver responses (everything resolves)
and `activeonly=false`, differing only in the nondeterministic order in
which the two resolver threads write their outcomes, report the
resolving candidates in different orders — and the reverse-schedule run
does not report in batch input order.  The reporting loop iterates the
dict in insertion order, which is thread completion order, so neither
input-order reporting nor schedule-independent determinism holds. -/
theorem c8_counterexample_order_depends_on_schedule :
    (tryTldWrapper cfgPlain capsFlush "k.example" initSt ["k.a", "k.b"]).events
      = ["k.a", "k.b"] ∧
    (tryTldWrapper cfgPlain capsOrdB "k.example" initSt ["k.a", "k.b"]).events
      = ["k.b", "k.a"] ∧
    (["k.b", "k.a"] : List String) ≠ ["k.a", "k.b"] ∧
    capsOrdB.resolve "k.a" = capsFlush.resolve "k.a" ∧
    capsOrdB.resolve "k.b" = capsFlush.resolve "k.b" :=
  ⟨by decide, by decide, by decide, rfl, rfl⟩

/-- C8 (amended): the reporting order of a batch is the first-write
(dict insertion) order of its thread schedule, and the pipeline is
deterministic once the schedule is fixed: for the schedule that writes
in batch input order, a duplicate-free batch not containing the target
is, with `activeonly=false`, reported exactly as the input-order filter
of its resolving candidates. -/
theorem c8_amended_order_follows_schedule (cfg : Config) (caps : Caps)
    (base : String) (s : RunSt) (b : List String)
    (ha : cfg.activeonly = false) (hsched : caps.sched b = b)
    (hnd : b.Nodup) (hb : ∀ u ∈ b, u ≠ base) :
    (tryTldWrapper cfg caps base s b).events =
      s.events ++ b.filter (fun u => isOkB (caps.resolve u)) := by
  unfold tryTldWrapper
  rw [hsched, runThreads_eq_map caps.resolve b hnd]
  have h := emitLoop_map_inactive cfg caps base ha b
    { s with batches := s.batches ++ [b] } hb
  simpa using h

/-- C8 (witness): the amended claim at the in-order schedule over the
batch `[k.x, k.y]`. -/
theorem c8_witness :
    (tryTldWrapper cfgPlain capsFlush "k.example" initSt ["k.x", "k.y"]).events =
      initSt.events ++ (["k.x", "k.y"] : List String).filter
        (fun u => isOkB (capsFlush.resolve u)) :=
  c8_amended_order_follows_schedule cfgPlain capsFlush "k.example" initSt
    ["k.x", "k.y"] rfl rfl (by decide) (by decide)

/-- C9: cooperative cancellation.  (i) In a state where `start` has
returned early (`halted`), every further TLD step, every sub-TLD step
and the final leftover flush leave the state unchanged: no candidate is
generated, no batch is dispatched, and the partially accumulated
`targetList` is discarded without being resolved.  (ii) When the
cancellation check at a non-skipped TLD line finds the flag set, the
step only increments the check counter and halts, dispatching nothing.
(iii) Events already emitted by batches dispatched before cancellation
are preserved by every later TLD step. -/
theorem c9_cancellation_halts_run (cfg : Config) (caps : Caps)
    (keyword base tld subtld : String) (s : RunSt) :
    (s.halted = true →
      stepTld cfg caps keyword base s tld = s ∧
      stepSub cfg caps keyword base tld s subtld = s ∧
      finishRun cfg caps base s = s) ∧
    (s.halted = false → startsWithHash tld = false →
      (cfg.skipwildcards && caps.wild tld) = false →
      caps.stop s.checks = true →
      stepTld cfg caps keyword base s tld =
        { s with checks := s.checks + 1, halted := true }) ∧
    (∃ t1, (stepTld cfg caps keyword base s tld).events = s.events ++ t1) :=
  ⟨fun hh => ⟨stepTld_halted cfg caps keyword base s tld hh,
      stepSub_halted cfg caps keyword base tld s subtld hh,
      finishRun_halted cfg caps base s hh⟩,
    fun hh hc hw hstop => stepTld_stop cfg caps keyword base s tld hh hc hw hstop,
    stepTld_events_mono cfg caps keyword base s tld⟩

/-- C9 (witness): part (i) at a halted state and part (ii) at the
initial state with the cancellation flag raised from the first check. -/
theorem c9_witness :
    stepTld cfgPlain capsFlush "k" "k.example" haltedSt "a" = haltedSt ∧
    stepTld cfgPlain capsStopNow "k" "k.example" initSt "a" =
      { initSt with checks := initSt.checks + 1, halted := true } := by
  constructor
  · exact ((c9_cancellation_halts_run cfgPlain capsFlush "k" "k.example" "a" "com"
      haltedSt).1 rfl).1
  · exact (c9_cancellation_halts_run cfgPlain capsStopNow "k" "k.example" "a" "com"
      initSt).2.1 rfl (by decide) rfl rfl

/-- C10: the per-batch outcome map has exactly one boolean entry per
distinct candidate string written (its key list is duplicate-free), a
string is a key iff it occurs in the batch (for any faithful schedule,
i.e. any write order that is a permutation of the batch), and a single
wrapper call emits any given candidate string at most once. -/
theorem c10_outcome_map_deduplicates (cfg : Config) (caps : Caps)
    (base : String) (s : RunSt) (b : List String) (t : String)
    (resolve : String → Except String (List String)) (w : List String)
    (hperm : (caps.sched b).Perm b) :
    (dkeys (runThreads resolve w)).Nodup ∧
    (t ∈ dkeys (runThreads caps.resolve (caps.sched b)) ↔ t ∈ b) ∧
    (tryTldWrapper cfg caps base s b).events.count t ≤ s.events.count t + 1 := by
  refine ⟨nodup_dkeys_foldl resolve w [] (by simp [dkeys]), ?_, ?_⟩
  · unfold runThreads
    rw [mem_dkeys_foldl caps.resolve t (caps.sched b) []]
    simp only [dkeys_nil, List.not_mem_nil, false_or]
    exact hperm.mem_iff
  · unfold tryTldWrapper
    have hn : (dkeys (runThreads caps.resolve (caps.sched b))).Nodup :=
      nodup_dkeys_foldl caps.resolve (caps.sched b) [] (by simp [dkeys])
    have h := emitLoop_events_count cfg caps base t
      (runThreads caps.resolve (caps.sched b))
      { s with batches := s.batches ++ [b] } hn
    have h2 : ({ s with batches := s.batches ++ [b] } : RunSt).events.count t
        = s.events.count t := rfl
    rw [h2] at h
    by_cases hm : t ∈ dkeys (runThreads caps.resolve (caps.sched b))
    · rw [if_pos hm] at h
      exact h
    · rw [if_neg hm] at h
      omega

/-- C10 (witness): the theorem at a batch containing the same candidate
string twice. -/
theorem c10_witness :
    (dkeys (runThreads capsFlush.resolve ["k.a", "k.a"])).Nodup ∧
    ("k.a" ∈ dkeys (runThreads capsFlush.resolve (capsFlush.sched ["k.a", "k.a"])) ↔
      "k.a" ∈ (["k.a", "k.a"] : List String)) ∧
    (tryTldWrapper cfgPlain capsFlush "k.example" initSt
        ["k.a", "k.a"]).events.count "k.a" ≤
      initSt.events.count "k.a" + 1 :=
  c10_outcome_map_deduplicates cfgPlain capsFlush "k.example" initSt ["k.a", "k.a"]
    "k.a" capsFlush.resolve ["k.a", "k.a"] (List.Perm.refl _)

end SearchTld
